import Mathlib

/-!
Shallow embedding of the affine sampling pipeline of `src/locnet.py`
(spatial transformer core): normalized grid construction
(`affine_grid_generator`), pixel gather (`get_pixel_value`) and bilinear
sampling (`bilinear_sampler`).

Modelling choices:
* Floating-point values are modelled by exact rationals `ℚ`.
* An image batch element is a height, a width and a pixel function
  `pix : ℕ → ℕ → ℚ` in `pix row col` (row-major) layout; the channel
  dimension is omitted because, as the source notes, "the sampling is done
  identically for each channel of the input": a pixel value stands for the
  full channel slice.
* The batched tensor kernels act independently on every batch element and
  every output pixel (the index arithmetic in the source builds, for batch
  element `b` and output pixel `(i, j)`, indices into image `b` only), so
  they are embedded per batch element and per output pixel; the batch is a
  list of (image, theta) pairs mapped through the per-element pipeline.
* `tf.clip_by_value t lo hi` is `min (max t lo) hi` on `ℤ` (int32 does not
  overflow at these sizes); `tf.floor` is `Int.floor`.
-/

/-- One batch element of an image batch in (H, W, C) layout:
`pix i j` is the (channel slice of the) pixel at row `i`, column `j`. -/
structure Image where
  H : ℕ
  W : ℕ
  pix : ℕ → ℕ → ℚ

/-- A 2×3 affine matrix, one batch element of theta (shape (B, 2, 3)). -/
structure Theta where
  t00 : ℚ
  t01 : ℚ
  t02 : ℚ
  t10 : ℚ
  t11 : ℚ
  t12 : ℚ

/-- The identity transform [[1,0,0],[0,1,0]]. -/
def idTheta : Theta := ⟨1, 0, 0, 0, 1, 0⟩

/-- The all-zero 2×3 transform. -/
def zeroTheta : Theta := ⟨0, 0, 0, 0, 0, 0⟩

/-- `tf.clip_by_value v lo hi` on int32 tensors. -/
def clip (v lo hi : ℤ) : ℤ := min (max v lo) hi

/-- `tf.linspace a b n` evaluated at index `i`: `n` evenly spaced values
from `a` to `b`; a single point maps to the start of the range. -/
def linspace (a b : ℚ) (n : ℕ) (i : ℕ) : ℚ :=
  if n ≤ 1 then a else a + (b - a) * i / ((n : ℚ) - 1)

/-- `get_pixel_value` of `src/locnet.py` for one batch element and one
output pixel: `tf.gather_nd` reads `img[b, y, x]` (full channel slice) at
the integer coordinates it is handed.  The source performs no bounds
check; negative coordinates are truncated by `Int.toNat` in this total
model (the sampler only calls it with clamped, in-range coordinates,
which theorem `corner_indices_in_bounds` below establishes). -/
def get_pixel_value (img : Image) (x y : ℤ) : ℚ :=
  img.pix y.toNat x.toNat

/-- `affine_grid_generator height width theta`, x-component at output
pixel `(i, j)` (row `i`, column `j`): `tf.meshgrid` with default `xy`
indexing puts `x_t[i][j] = linspace (-1) 1 width j` and
`y_t[i][j] = linspace (-1) 1 height i`; the homogeneous column
`(x_t, y_t, 1)` is multiplied by the first row of theta. -/
def grid_x (θ : Theta) (height width : ℕ) (i j : ℕ) : ℚ :=
  θ.t00 * linspace (-1) 1 width j + θ.t01 * linspace (-1) 1 height i + θ.t02

/-- `affine_grid_generator height width theta`, y-component at output
pixel `(i, j)`: second row of theta applied to the homogeneous column. -/
def grid_y (θ : Theta) (height width : ℕ) (i j : ℕ) : ℚ :=
  θ.t10 * linspace (-1) 1 width j + θ.t11 * linspace (-1) 1 height i + θ.t12

/-- The rescale of the x coordinate in `bilinear_sampler`:
`x = 0.5 * ((x + 1.0) * tf.cast(max_x - 1, float32))` with
`max_x = W - 1` (int32 arithmetic, so `max_x - 1 = W - 1 - 1`). -/
def rescale_x (W : ℕ) (x : ℚ) : ℚ :=
  (1/2) * ((x + 1) * (((W : ℤ) - 1 - 1 : ℤ) : ℚ))

/-- The rescale of the y coordinate in `bilinear_sampler`:
`y = 0.5 * ((y + 1.0) * tf.cast(max_y - 1, float32))` with `max_y = H - 1`. -/
def rescale_y (H : ℕ) (y : ℚ) : ℚ :=
  (1/2) * ((y + 1) * (((H : ℤ) - 1 - 1 : ℤ) : ℚ))

/-- Corner index `x0 = clip (floor x) 0 max_x` of `bilinear_sampler`,
on the already rescaled coordinate `x`. -/
def corner_x0 (W : ℕ) (x : ℚ) : ℤ := clip ⌊x⌋ 0 ((W : ℤ) - 1)

/-- Corner index `x1 = clip (floor x + 1) 0 max_x` of `bilinear_sampler`. -/
def corner_x1 (W : ℕ) (x : ℚ) : ℤ := clip (⌊x⌋ + 1) 0 ((W : ℤ) - 1)

/-- Corner index `y0 = clip (floor y) 0 max_y` of `bilinear_sampler`. -/
def corner_y0 (H : ℕ) (y : ℚ) : ℤ := clip ⌊y⌋ 0 ((H : ℤ) - 1)

/-- Corner index `y1 = clip (floor y + 1) 0 max_y` of `bilinear_sampler`. -/
def corner_y1 (H : ℕ) (y : ℚ) : ℤ := clip (⌊y⌋ + 1) 0 ((H : ℤ) - 1)

/-- Bilinear weight `wa = (x1 - x) * (y1 - y)` of `bilinear_sampler`,
computed from the unclamped rescaled coordinates and the
clamped-then-recast corner coordinates. -/
def wa (W H : ℕ) (x y : ℚ) : ℚ :=
  (((corner_x1 W x : ℤ) : ℚ) - x) * (((corner_y1 H y : ℤ) : ℚ) - y)

/-- Bilinear weight `wb = (x1 - x) * (y - y0)` of `bilinear_sampler`. -/
def wb (W H : ℕ) (x y : ℚ) : ℚ :=
  (((corner_x1 W x : ℤ) : ℚ) - x) * (y - ((corner_y0 H y : ℤ) : ℚ))

/-- Bilinear weight `wc = (x - x0) * (y1 - y)` of `bilinear_sampler`. -/
def wc (W H : ℕ) (x y : ℚ) : ℚ :=
  (x - ((corner_x0 W x : ℤ) : ℚ)) * (((corner_y1 H y : ℤ) : ℚ) - y)

/-- Bilinear weight `wd = (x - x0) * (y - y0)` of `bilinear_sampler`. -/
def wd (W H : ℕ) (x y : ℚ) : ℚ :=
  (x - ((corner_x0 W x : ℤ) : ℚ)) * (y - ((corner_y0 H y : ℤ) : ℚ))

/-- Steps 2–6 of `bilinear_sampler` on the already rescaled (pixel-space)
coordinates `(x, y)`: corner extraction with clamping, four-corner gather
via `get_pixel_value`, weight computation, and the weighted sum
`tf.add_n [wa*Ia, wb*Ib, wc*Ic, wd*Id]`. -/
def sample_at (img : Image) (x y : ℚ) : ℚ :=
  wa img.W img.H x y * get_pixel_value img (corner_x0 img.W x) (corner_y0 img.H y) +
    wb img.W img.H x y * get_pixel_value img (corner_x0 img.W x) (corner_y1 img.H y) +
    wc img.W img.H x y * get_pixel_value img (corner_x1 img.W x) (corner_y0 img.H y) +
    wd img.W img.H x y * get_pixel_value img (corner_x1 img.W x) (corner_y1 img.H y)

/-- `bilinear_sampler img x y` of `src/locnet.py` for one batch element
and one output pixel, on the normalized coordinates produced by
`affine_grid_generator`: rescale, then corner extraction, gather and
weighted combination. -/
def bilinear_sampler (img : Image) (xn yn : ℚ) : ℚ :=
  sample_at img (rescale_x img.W xn) (rescale_y img.H yn)

/-- One output pixel of the full pipeline `LocNet.call` after theta is
predicted: `affine_grid_generator` followed by `bilinear_sampler`. -/
def stn_pixel (img : Image) (θ : Theta) (H_out W_out : ℕ) (i j : ℕ) : ℚ :=
  bilinear_sampler img (grid_x θ H_out W_out i j) (grid_y θ H_out W_out i j)

/-- The full per-batch-element pipeline: output image of shape
(H_out, W_out) sampled from `img` under `θ`. -/
def stn (img : Image) (θ : Theta) (H_out W_out : ℕ) : Image :=
  ⟨H_out, W_out, fun i j => stn_pixel img θ H_out W_out i j⟩

/-- The batched pipeline: each batch element `b` is produced from image
`b` and theta `b` (the gather in `get_pixel_value` builds its batch index
column from `tf.range(batch_size)`, so element `b` reads image `b`). -/
def stn_batch (batch : List (Image × Theta)) (H_out W_out : ℕ) : List Image :=
  batch.map fun p => stn p.1 p.2 H_out W_out

/-- The concrete 4×4 single-channel image with values 0..15 in row-major
order. -/
def img4 : Image := ⟨4, 4, fun i j => ((4 * i + j : ℕ) : ℚ)⟩

/-! ### Helper lemmas about `clip` and the corner indices -/

lemma clip_succ_eq_of_ne {v M : ℤ} (h : clip v 0 M ≠ clip (v + 1) 0 M) :
    clip (v + 1) 0 M = clip v 0 M + 1 := by
  unfold clip at *
  omega

lemma clip_succ_eq_self_of_le {v M : ℤ} (h : v ≤ -1) :
    clip v 0 M = clip (v + 1) 0 M := by
  unfold clip
  omega

lemma clip_succ_eq_self_of_ge {v M : ℤ} (h : M ≤ v) :
    clip v 0 M = clip (v + 1) 0 M := by
  unfold clip
  omega

/-- If the rescaled x coordinate lies outside `[0, W-1)` the two clamped
x corner indices coincide. -/
lemma corner_x_collapse (W : ℕ) (x : ℚ) (h : x < 0 ∨ (W : ℚ) - 1 ≤ x) :
    corner_x0 W x = corner_x1 W x := by
  unfold corner_x0 corner_x1
  rcases h with h | h
  · refine clip_succ_eq_self_of_le ?_
    have := Int.floor_lt.mpr (show x < ((0 : ℤ) : ℚ) by exact_mod_cast h)
    omega
  · exact clip_succ_eq_self_of_ge (Int.le_floor.mpr (by push_cast; linarith))

/-- If the rescaled y coordinate lies outside `[0, H-1)` the two clamped
y corner indices coincide. -/
lemma corner_y_collapse (H : ℕ) (y : ℚ) (h : y < 0 ∨ (H : ℚ) - 1 ≤ y) :
    corner_y0 H y = corner_y1 H y := by
  unfold corner_y0 corner_y1
  rcases h with h | h
  · refine clip_succ_eq_self_of_le ?_
    have := Int.floor_lt.mpr (show y < ((0 : ℤ) : ℚ) by exact_mod_cast h)
    omega
  · exact clip_succ_eq_self_of_ge (Int.le_floor.mpr (by push_cast; linarith))

/-- When the two x corner indices coincide after clamping, the weighted
four-corner sum telescopes to zero, whatever the image contents. -/
lemma sample_at_eq_zero_of_x_collapse (img : Image) (x y : ℚ)
    (h : corner_x0 img.W x = corner_x1 img.W x) : sample_at img x y = 0 := by
  unfold sample_at wa wb wc wd
  rw [h]
  ring

/-- When the two y corner indices coincide after clamping, the weighted
four-corner sum telescopes to zero, whatever the image contents. -/
lemma sample_at_eq_zero_of_y_collapse (img : Image) (x y : ℚ)
    (h : corner_y0 img.H y = corner_y1 img.H y) : sample_at img x y = 0 := by
  unfold sample_at wa wb wc wd
  rw [h]
  ring

/-! ### Claim theorems -/

/-- C2 (code bug evaluation): the claim says the rescale maps the
normalized endpoint `+1` to pixel `dim - 1` (here `3` for `dim = 4`), as
the source's own comment "rescale x and y to [0, W-1/H-1]" and its
identity-round-trip docstring require; the implemented rescale maps `+1`
to `2` instead. -/
theorem rescale_endpoint_mismatch :
    rescale_x 4 1 = 2 ∧ rescale_y 4 1 = 2 ∧ (2 : ℚ) ≠ (4 : ℚ) - 1 := by
  norm_num [rescale_x, rescale_y]

/-- C5: the implemented rescale multiplies by `(dim - 1) - 1`, i.e.
computes `pixel = 0.5 * (coord_norm + 1) * (dim - 2)` (width for x,
height for y), so it maps the endpoint `-1` to `0` but the endpoint `+1`
to `dim - 2`, one pixel short of `dim - 1`. -/
theorem rescale_uses_dim_minus_two (W H : ℕ) (x y : ℚ) :
    rescale_x W x = (1/2) * ((x + 1) * ((W : ℚ) - 2)) ∧
    rescale_y H y = (1/2) * ((y + 1) * ((H : ℚ) - 2)) ∧
    rescale_x W 1 = (W : ℚ) - 2 ∧ rescale_y H 1 = (H : ℚ) - 2 ∧
    rescale_x W (-1) = 0 ∧ rescale_y H (-1) = 0 := by
  unfold rescale_x rescale_y
  push_cast
  refine ⟨by ring, by ring, by ring, by ring, by ring, by ring⟩

/-- C4: whenever neither pair of corner indices collapses under clamping
(`x0 ≠ x1` and `y0 ≠ y1`), the four bilinear weights sum to exactly 1,
for any rational coordinates. -/
theorem weights_sum_to_one (W H : ℕ) (x y : ℚ)
    (hx : corner_x0 W x ≠ corner_x1 W x) (hy : corner_y0 H y ≠ corner_y1 H y) :
    wa W H x y + wb W H x y + wc W H x y + wd W H x y = 1 := by
  have hx1 : corner_x1 W x = corner_x0 W x + 1 := clip_succ_eq_of_ne hx
  have hy1 : corner_y1 H y = corner_y0 H y + 1 := clip_succ_eq_of_ne hy
  unfold wa wb wc wd
  rw [hx1, hy1]
  push_cast
  ring

/-- Witness for C4 at `W = H = 4`, `x = y = 1/2`: the corner pairs do not
collapse and the weights sum to 1. -/
theorem weights_sum_to_one_witness :
    wa 4 4 (1/2) (1/2) + wb 4 4 (1/2) (1/2) + wc 4 4 (1/2) (1/2) +
      wd 4 4 (1/2) (1/2) = 1 :=
  weights_sum_to_one 4 4 (1/2) (1/2)
    (by norm_num [corner_x0, corner_x1, clip])
    (by norm_num [corner_y0, corner_y1, clip])

/-- C6: for any source dimensions `W, H ≥ 1` and any rescaled coordinates,
the four clamped corner indices handed to `get_pixel_value` lie in
`[0, W-1]` (x) and `[0, H-1]` (y), so every gather read is in bounds. -/
theorem corner_indices_in_bounds (W H : ℕ) (x y : ℚ)
    (hW : 1 ≤ W) (hH : 1 ≤ H) :
    (0 ≤ corner_x0 W x ∧ corner_x0 W x ≤ (W : ℤ) - 1) ∧
    (0 ≤ corner_x1 W x ∧ corner_x1 W x ≤ (W : ℤ) - 1) ∧
    (0 ≤ corner_y0 H y ∧ corner_y0 H y ≤ (H : ℤ) - 1) ∧
    (0 ≤ corner_y1 H y ∧ corner_y1 H y ≤ (H : ℤ) - 1) := by
  have hW' : (1 : ℤ) ≤ (W : ℤ) := by exact_mod_cast hW
  have hH' : (1 : ℤ) ≤ (H : ℤ) := by exact_mod_cast hH
  unfold corner_x0 corner_x1 corner_y0 corner_y1 clip
  omega

/-- Witness for C6 at `W = H = 4`, far out-of-range coordinates
`x = 100`, `y = -7`. -/
theorem corner_indices_in_bounds_witness :
    (0 ≤ corner_x0 4 100 ∧ corner_x0 4 100 ≤ (4 : ℤ) - 1) ∧
    (0 ≤ corner_x1 4 100 ∧ corner_x1 4 100 ≤ (4 : ℤ) - 1) ∧
    (0 ≤ corner_y0 4 (-7) ∧ corner_y0 4 (-7) ≤ (4 : ℤ) - 1) ∧
    (0 ≤ corner_y1 4 (-7) ∧ corner_y1 4 (-7) ≤ (4 : ℤ) - 1) :=
  corner_indices_in_bounds 4 4 100 (-7) (by norm_num) (by norm_num)

/-- C10 (counterexample): at rescaled `x = 10` (outside `[0, 3)` for
`W = 4`) and interior `y = 1/2`, the weight `wa` is `-7/2`, not `0`: the
four weights do not all vanish outside the valid range, as the claim
states; only their weighted combination cancels. -/
theorem out_of_range_weight_nonzero :
    (4 : ℚ) - 1 ≤ 10 ∧ wa 4 4 10 (1/2) ≠ 0 := by
  constructor
  · norm_num
  · norm_num [wa, corner_x1, corner_y1, clip]

/-- C10 (amended): whenever the rescaled x coordinate lies outside
`[0, W-1)` (including exactly at `x = W-1`) or the rescaled y coordinate
lies outside `[0, H-1)`, the corresponding pair of corner indices
coincides after clamping and the sampler returns exactly `0` for that
pixel — not the edge pixel's value; the four weights themselves need not
vanish, their weighted combination cancels. -/
theorem out_of_range_sample_eq_zero (img : Image) (x y : ℚ)
    (h : (x < 0 ∨ (img.W : ℚ) - 1 ≤ x) ∨ (y < 0 ∨ (img.H : ℚ) - 1 ≤ y)) :
    ((x < 0 ∨ (img.W : ℚ) - 1 ≤ x) → corner_x0 img.W x = corner_x1 img.W x) ∧
    ((y < 0 ∨ (img.H : ℚ) - 1 ≤ y) → corner_y0 img.H y = corner_y1 img.H y) ∧
    sample_at img x y = 0 := by
  refine ⟨fun hx => corner_x_collapse img.W x hx,
    fun hy => corner_y_collapse img.H y hy, ?_⟩
  rcases h with hx | hy
  · exact sample_at_eq_zero_of_x_collapse img x y (corner_x_collapse img.W x hx)
  · exact sample_at_eq_zero_of_y_collapse img x y (corner_y_collapse img.H y hy)

/-- Witness for the amended C10 at `img4`, rescaled `x = 10`, `y = 1/2`:
the x corner indices coincide and the sample is `0`. -/
theorem out_of_range_sample_eq_zero_witness :
    ((10 : ℚ) < 0 ∨ (img4.W : ℚ) - 1 ≤ 10) ∧
    corner_x0 img4.W 10 = corner_x1 img4.W 10 ∧ sample_at img4 10 (1/2) = 0 := by
  have h : ((10 : ℚ) < 0 ∨ (img4.W : ℚ) - 1 ≤ 10) := by
    right
    norm_num [img4]
  have h2 := out_of_range_sample_eq_zero img4 10 (1/2) (Or.inl h)
  exact ⟨h, h2.1 h, h2.2.2⟩

/-- C7 (counterexample): the rescaled coordinate pair `(3, 0)` lies
exactly on an integer grid point of a 4×4 image (`x = 3 = W - 1` is the
last valid column), yet no corner receives weight 1: clamping makes
`x0 = x1 = 3` and all four weights are `0`. -/
theorem grid_point_weights_not_unit :
    ¬ (wa 4 4 3 0 = 1 ∨ wb 4 4 3 0 = 1 ∨ wc 4 4 3 0 = 1 ∨ wd 4 4 3 0 = 1) := by
  norm_num [wa, wb, wc, wd, corner_x0, corner_x1, corner_y0, corner_y1, clip]

/-- C7 (amended): at every integer grid point `(k, m)` with
`0 ≤ k ≤ W-2` and `0 ≤ m ≤ H-2` (so clamping collapses no corner pair),
the weight of the `(x0, y0)` corner is 1 and the other three are 0; at
the last column `x = W-1` or last row `y = H-1` all four weights vanish
instead. -/
theorem grid_point_weights_degenerate (W H : ℕ) (k m : ℤ)
    (hk0 : 0 ≤ k) (hk : k ≤ (W : ℤ) - 2) (hm0 : 0 ≤ m) (hm : m ≤ (H : ℤ) - 2) :
    wa W H (k : ℚ) (m : ℚ) = 1 ∧ wb W H (k : ℚ) (m : ℚ) = 0 ∧
    wc W H (k : ℚ) (m : ℚ) = 0 ∧ wd W H (k : ℚ) (m : ℚ) = 0 := by
  have hx0 : corner_x0 W (k : ℚ) = k := by
    unfold corner_x0 clip
    rw [Int.floor_intCast]
    omega
  have hx1 : corner_x1 W (k : ℚ) = k + 1 := by
    unfold corner_x1 clip
    rw [Int.floor_intCast]
    omega
  have hy0 : corner_y0 H (m : ℚ) = m := by
    unfold corner_y0 clip
    rw [Int.floor_intCast]
    omega
  have hy1 : corner_y1 H (m : ℚ) = m + 1 := by
    unfold corner_y1 clip
    rw [Int.floor_intCast]
    omega
  unfold wa wb wc wd
  rw [hx0, hx1, hy0, hy1]
  push_cast
  refine ⟨by ring, by ring, by ring, by ring⟩

/-- Witness for the amended C7 at `W = H = 4`, interior grid point
`(1, 1)`. -/
theorem grid_point_weights_degenerate_witness :
    wa 4 4 ((1 : ℤ) : ℚ) ((1 : ℤ) : ℚ) = 1 ∧
    wb 4 4 ((1 : ℤ) : ℚ) ((1 : ℤ) : ℚ) = 0 ∧
    wc 4 4 ((1 : ℤ) : ℚ) ((1 : ℤ) : ℚ) = 0 ∧
    wd 4 4 ((1 : ℤ) : ℚ) ((1 : ℤ) : ℚ) = 0 :=
  grid_point_weights_degenerate 4 4 1 1 (by norm_num) (by norm_num)
    (by norm_num) (by norm_num)

/-- Concrete evaluation: sampling `img4` at rescaled coordinates
`(2/3, 0)` blends columns 0 and 1 of row 0. -/
lemma sample_img4_interp : sample_at img4 (2/3) 0 = 2/3 := by
  have hW : img4.W = 4 := rfl
  have hH : img4.H = 4 := rfl
  have hx0 : corner_x0 4 (2/3) = 0 := by norm_num [corner_x0, clip]
  have hx1 : corner_x1 4 (2/3) = 1 := by norm_num [corner_x1, clip]
  have hy0 : corner_y0 4 0 = 0 := by norm_num [corner_y0, clip]
  have hy1 : corner_y1 4 0 = 1 := by norm_num [corner_y1, clip]
  rw [sample_at, hW, hH, wa, wb, wc, wd, hx0, hx1, hy0, hy1]
  norm_num [get_pixel_value, img4]

/-- Concrete evaluation: sampling `img4` at rescaled coordinates `(0, 1)`
reads pixel (row 1, column 0) with weight 1. -/
lemma sample_img4_edge : sample_at img4 0 1 = 4 := by
  have hW : img4.W = 4 := rfl
  have hH : img4.H = 4 := rfl
  have hx0 : corner_x0 4 0 = 0 := by norm_num [corner_x0, clip]
  have hx1 : corner_x1 4 0 = 1 := by norm_num [corner_x1, clip]
  have hy0 : corner_y0 4 1 = 1 := by norm_num [corner_y0, clip]
  have hy1 : corner_y1 4 1 = 2 := by norm_num [corner_y1, clip]
  rw [sample_at, hW, hH, wa, wb, wc, wd, hx0, hx1, hy0, hy1]
  norm_num [get_pixel_value, img4]

/-- Concrete evaluation: sampling `img4` at rescaled coordinates `(1, 1)`
reads the interior pixel (1, 1) with weight 1. -/
lemma sample_img4_center : sample_at img4 1 1 = 5 := by
  have hW : img4.W = 4 := rfl
  have hH : img4.H = 4 := rfl
  have hx0 : corner_x0 4 1 = 1 := by norm_num [corner_x0, clip]
  have hx1 : corner_x1 4 1 = 2 := by norm_num [corner_x1, clip]
  have hy0 : corner_y0 4 1 = 1 := by norm_num [corner_y0, clip]
  have hy1 : corner_y1 4 1 = 2 := by norm_num [corner_y1, clip]
  rw [sample_at, hW, hH, wa, wb, wc, wd, hx0, hx1, hy0, hy1]
  norm_num [get_pixel_value, img4]

/-- C3 (counterexample): on `img4`, the normalized coordinate pair
`(-3/2, 0)` rescales to pixel position `(-1/2, 1)`, outside the image on
the left; the sampler returns `0` there, while sampling at the clamped
boundary (normalized `(-1, 0)`, pixel `(0, 1)`) returns the edge pixel
value `4` — so out-of-range samples do not replicate the nearest edge
pixel. -/
theorem sampler_not_edge_replicating :
    bilinear_sampler img4 (-3/2) 0 ≠ bilinear_sampler img4 (-1) 0 := by
  have h1 : bilinear_sampler img4 (-3/2) 0 = 0 := by
    rw [bilinear_sampler]
    have hrx : rescale_x img4.W (-3/2) = -1/2 := by norm_num [rescale_x, img4]
    have hry : rescale_y img4.H 0 = 1 := by norm_num [rescale_y, img4]
    rw [hrx, hry]
    exact sample_at_eq_zero_of_x_collapse img4 (-1/2) 1
      (corner_x_collapse img4.W (-1/2) (Or.inl (by norm_num)))
  have h2 : bilinear_sampler img4 (-1) 0 = 4 := by
    rw [bilinear_sampler]
    have hrx : rescale_x img4.W (-1) = 0 := by norm_num [rescale_x, img4]
    have hry : rescale_y img4.H 0 = 1 := by norm_num [rescale_y, img4]
    rw [hrx, hry]
    exact sample_img4_edge
  rw [h1, h2]
  norm_num

/-- C3 (amended): the sampler is total — for every image and every
normalized coordinate pair, arbitrarily far out of range, it produces a
value without failing — but a sample whose rescaled position falls
outside `[0, W-1) × [0, H-1)` yields exactly `0`, not the nearest edge
pixel's value. -/
theorem out_of_range_sampler_total_and_zero (img : Image) (xn yn : ℚ)
    (h : (rescale_x img.W xn < 0 ∨ (img.W : ℚ) - 1 ≤ rescale_x img.W xn) ∨
      (rescale_y img.H yn < 0 ∨ (img.H : ℚ) - 1 ≤ rescale_y img.H yn)) :
    bilinear_sampler img xn yn = 0 := by
  rw [bilinear_sampler]
  rcases h with hx | hy
  · exact sample_at_eq_zero_of_x_collapse img _ _
      (corner_x_collapse img.W _ hx)
  · exact sample_at_eq_zero_of_y_collapse img _ _
      (corner_y_collapse img.H _ hy)

/-- Witness for the amended C3 at `img4`, normalized `(-3/2, 0)` (which
rescales to pixel x-position `-1/2 < 0`). -/
theorem out_of_range_sampler_total_and_zero_witness :
    (rescale_x img4.W (-3/2) < 0 ∨ (img4.W : ℚ) - 1 ≤ rescale_x img4.W (-3/2)) ∧
    bilinear_sampler img4 (-3/2) 0 = 0 := by
  have h : rescale_x img4.W (-3/2) < 0 ∨ (img4.W : ℚ) - 1 ≤ rescale_x img4.W (-3/2) := by
    left
    norm_num [rescale_x, img4]
  exact ⟨h, out_of_range_sampler_total_and_zero img4 (-3/2) 0 (Or.inl h)⟩

/-- C1 (code-bug evaluation): with the identity theta and output size
equal to input size on the 4×4 image with values 0..15, the pipelines
output does **not** reproduce the input: at output pixel (0, 1) the code
produces `2/3` while the input pixel is `1` (the off-by-one rescale
samples at pixel position 2/3 instead of 1), contradicting the source's
own docstring "output image should be identical to input image when
theta is initialized to identity transform". -/
theorem identity_transform_not_roundtrip :
    (stn img4 idTheta 4 4).pix 0 1 = 2/3 ∧ img4.pix 0 1 = 1 ∧
    (stn img4 idTheta 4 4).pix 0 1 ≠ img4.pix 0 1 := by
  have e1 : (stn img4 idTheta 4 4).pix 0 1 =
      bilinear_sampler img4 (grid_x idTheta 4 4 0 1) (grid_y idTheta 4 4 0 1) := rfl
  have hgx : grid_x idTheta 4 4 0 1 = -1/3 := by
    norm_num [grid_x, idTheta, linspace]
  have hgy : grid_y idTheta 4 4 0 1 = -1 := by
    norm_num [grid_y, idTheta, linspace]
  have hrx : rescale_x img4.W (-1/3) = 2/3 := by norm_num [rescale_x, img4]
  have hry : rescale_y img4.H (-1) = 0 := by norm_num [rescale_y, img4]
  have hv : (stn img4 idTheta 4 4).pix 0 1 = 2/3 := by
    rw [e1, hgx, hgy, bilinear_sampler, hrx, hry]
    exact sample_img4_interp
  have hi : img4.pix 0 1 = 1 := by norm_num [img4]
  refine ⟨hv, hi, ?_⟩
  rw [hv, hi]
  norm_num

/-- C8 (counterexample): for the all-zero theta on a 4×4 input, the
sampled coordinates do **not** clamp to edge pixels: the normalized grid
is constantly `(0, 0)`, which rescales to the interior pixel position
`(1, 1)`, so the corner index is `1` — neither `0` nor `W - 1 = 3` — and
the (constant) output value is the interior pixel `img4.pix 1 1`, not an
edge pixel read. -/
theorem zero_theta_not_edge_clamped :
    corner_x0 4 (rescale_x 4 (grid_x zeroTheta 4 4 0 0)) = 1 ∧
    (1 : ℤ) ≠ 0 ∧ (1 : ℤ) ≠ (4 : ℤ) - 1 ∧
    (stn img4 zeroTheta 4 4).pix 0 0 = img4.pix 1 1 := by
  have hgx : grid_x zeroTheta 4 4 0 0 = 0 := by
    norm_num [grid_x, zeroTheta]
  have hgy : grid_y zeroTheta 4 4 0 0 = 0 := by
    norm_num [grid_y, zeroTheta]
  have hrx : rescale_x 4 (0 : ℚ) = 1 := by norm_num [rescale_x]
  refine ⟨by rw [hgx, hrx]; norm_num [corner_x0, clip], by norm_num, by norm_num, ?_⟩
  have e1 : (stn img4 zeroTheta 4 4).pix 0 0 =
      bilinear_sampler img4 (grid_x zeroTheta 4 4 0 0) (grid_y zeroTheta 4 4 0 0) := rfl
  have hry : rescale_y img4.H (0 : ℚ) = 1 := by norm_num [rescale_y, img4]
  have hrx4 : rescale_x img4.W (0 : ℚ) = 1 := by norm_num [rescale_x, img4]
  rw [e1, hgx, hgy, bilinear_sampler, hrx4, hry, sample_img4_center]
  norm_num [img4]

/-- C8 (amended): the pipeline is a total function of theta — every
theta, singular or all-zero included, produces an output with no
validation or special case — and for the all-zero theta every output
pixel equals the single sample at normalized `(0, 0)` (the source-image
position `((W-2)/2, (H-2)/2)` under the implemented rescale), so the
output image is constant; the coordinates need not clamp to edge
pixels. -/
theorem zero_theta_constant_output (img : Image) (H_out W_out : ℕ) (i j : ℕ) :
    stn_pixel img zeroTheta H_out W_out i j = bilinear_sampler img 0 0 ∧
    rescale_x img.W 0 = ((img.W : ℚ) - 2) / 2 ∧
    rescale_y img.H 0 = ((img.H : ℚ) - 2) / 2 := by
  refine ⟨?_, ?_, ?_⟩
  · have hgx : grid_x zeroTheta H_out W_out i j = 0 := by
      norm_num [grid_x, zeroTheta]
    have hgy : grid_y zeroTheta H_out W_out i j = 0 := by
      norm_num [grid_y, zeroTheta]
    rw [stn_pixel, hgx, hgy]
  · unfold rescale_x
    push_cast
    ring
  · unfold rescale_y
    push_cast
    ring

/-- C9: batch elements do not interact: the output at batch position `b`
is determined by the (image, theta) pair at position `b` alone, and
stacking the same pairs in a permuted order permutes the output rows by
exactly that permutation. -/
theorem stn_batch_permutation_equivariant (H_out W_out : ℕ) :
    (∀ (l : List (Image × Theta)) (b : ℕ),
      (stn_batch l H_out W_out)[b]? = (l[b]?).map fun p => stn p.1 p.2 H_out W_out) ∧
    (∀ (n : ℕ) (f : Fin n → Image × Theta) (σ : Equiv.Perm (Fin n)) (k : Fin n),
      (stn_batch (List.ofFn fun i => f (σ i)) H_out W_out)[(k : ℕ)]? =
        (stn_batch (List.ofFn f) H_out W_out)[((σ k : Fin n) : ℕ)]?) := by
  constructor
  · intro l b
    simp [stn_batch, List.getElem?_map]
  · intro n f σ k
    simp [stn_batch, List.getElem?_map, List.getElem?_ofFn]
